import Mathlib

/-!
Verification of the johnnycache cache engine and flow scheduler.

This file gives a shallow embedding, in Lean 4, of the parts of the
johnnycache source that the specification talks about:

* `lib/Operation.js` — operation value objects, action derivation, hashes;
* `lib/Result.js` — result records and their document serialization;
* `lib/Query.js` and `lib/util/hasExpired.js` — the lookup predicate;
* `Cache.getResult` — index lookup with archive-existence check;
* `lib/Runner.js` (`prepareResult`) and `lib/util/incrementFilename.js` —
  collision-safe archive naming;
* `lib/util/getScoreForResult.js` and `lib/util/getRedundantResults.js` —
  the eviction policy;
* `lib/CacheFlow.js` / `lib/Step.js` — the flow scheduler.

JavaScript numbers are modelled by `JsNum` (a rational together with the
IEEE special values NaN and ±Infinity); JavaScript object documents by
association lists of `JsVal`; fallible code by `Except`.  External
collaborators (the content hash functions `jummy`/`hasha`, the `slugs`
package, `Math.log10`, the filesystem existence check) are parameters of
the definitions, as the specification treats them as black boxes.
-/

namespace Johnny

/-- Model of a JavaScript (IEEE double) number: NaN, ±Infinity, or a finite
value, with the finite values idealized as rationals. -/
inductive JsNum where
  | nan
  | posInf
  | negInf
  | fin (q : Rat)
deriving DecidableEq, Repr

/-- IEEE-style addition on `JsNum`: NaN is absorbing, `+∞ + -∞ = NaN`. -/
def JsNum.add : JsNum → JsNum → JsNum
  | nan, _ => nan
  | _, nan => nan
  | posInf, negInf => nan
  | negInf, posInf => nan
  | posInf, _ => posInf
  | _, posInf => posInf
  | negInf, _ => negInf
  | _, negInf => negInf
  | fin a, fin b => fin (a + b)

/-- IEEE-style negation on `JsNum`. -/
def JsNum.neg : JsNum → JsNum
  | nan => nan
  | posInf => negInf
  | negInf => posInf
  | fin a => fin (-a)

/-- IEEE-style multiplication on `JsNum`: NaN is absorbing, `±∞ * 0 = NaN`. -/
def JsNum.mul : JsNum → JsNum → JsNum
  | nan, _ => nan
  | _, nan => nan
  | posInf, posInf => posInf
  | posInf, negInf => negInf
  | negInf, posInf => negInf
  | negInf, negInf => posInf
  | posInf, fin b => if b = 0 then nan else if 0 < b then posInf else negInf
  | fin a, posInf => if a = 0 then nan else if 0 < a then posInf else negInf
  | negInf, fin b => if b = 0 then nan else if 0 < b then negInf else posInf
  | fin a, negInf => if a = 0 then nan else if 0 < a then negInf else posInf
  | fin a, fin b => fin (a * b)

/-- IEEE-style division on `JsNum` (signed zero is not modelled: `q / 0`
takes the sign of `q`, and `0 / 0 = NaN`). -/
def JsNum.div : JsNum → JsNum → JsNum
  | nan, _ => nan
  | _, nan => nan
  | posInf, posInf => nan
  | posInf, negInf => nan
  | negInf, posInf => nan
  | negInf, negInf => nan
  | posInf, fin b => if 0 ≤ b then posInf else negInf
  | negInf, fin b => if 0 ≤ b then negInf else posInf
  | fin _, posInf => fin 0
  | fin _, negInf => fin 0
  | fin a, fin b =>
    if b = 0 then (if a = 0 then nan else if 0 < a then posInf else negInf)
    else fin (a / b)

/-- JavaScript `<` on numbers: any comparison involving NaN is `false`. -/
def JsNum.ltB : JsNum → JsNum → Bool
  | nan, _ => false
  | _, nan => false
  | negInf, negInf => false
  | negInf, _ => true
  | _, negInf => false
  | posInf, _ => false
  | _, posInf => true
  | fin a, fin b => decide (a < b)

/-- JavaScript `>` on numbers, defined by flipping `<`. -/
def JsNum.gtB (a b : JsNum) : Bool := JsNum.ltB b a

/-- `true` exactly on finite values (JavaScript `Number.isFinite`). -/
def JsNum.isFiniteB : JsNum → Bool
  | fin _ => true
  | _ => false

/-- Model of a JavaScript primitive value as stored in an index document. -/
inductive JsVal where
  | str (s : String)
  | num (n : Int)
  | boolean (b : Bool)
  | null
deriving DecidableEq, Repr

/-- An index document (a flat JavaScript object): an association list from
property names to values.  A missing key models an `undefined` property. -/
def Doc : Type := List (String × JsVal)

instance : DecidableEq Doc := by unfold Doc; infer_instance

/-- Property read on a document: `none` models `undefined`. -/
def docGet (doc : Doc) (key : String) : Option JsVal := List.lookup key doc

/-- Model of JavaScript `s.substring(0, n)` (also lodash truncation):
the first `n` characters of the string. -/
def jsTake (s : String) (n : Nat) : String := String.mk (s.data.take n)

/-- lodash `trimEnd(s, '*')`: remove every trailing `'*'` character.
Source: `lib/util/isDependency.js`. -/
def stripTrailingStars (s : String) : String :=
  String.mk (s.data.reverse.dropWhile (· = '*')).reverse

/-- lodash `startsWith(s, target)`: whether `target` is a prefix of `s`,
modelled on the character lists. -/
def jsStartsWith (s target : String) : Bool := target.data.isPrefixOf s.data

/-- JavaScript `Array.prototype.join(',')`. -/
def joinComma (l : List String) : String := String.intercalate "," l

/-- The part of a filename before its last dot, and the empty string when
there is no dot.  Models the repository's `basenameWithoutExtension`
helper, whose inlined form in `Cache.incrementFilename` is
`basename.substring(0, basename.lastIndexOf('.'))`. -/
def basenameWithoutExtension (f : String) : String :=
  String.mk ((f.data.reverse.dropWhile (· ≠ '.')).drop 1).reverse

/-- Node's `path.extname`: the last dot of the filename together with
everything after it, and the empty string when there is no dot. -/
def extnamePart (f : String) : String :=
  if f.data.contains '.' then
    String.mk ('.' :: (f.data.reverse.takeWhile (· ≠ '.')).reverse)
  else ""

/-- `lib/util/isDependency.js`: some input file starts with some output
pattern after the output's trailing `'*'` wildcards are stripped. -/
def isDependency (inputFiles outputFiles : List String) : Bool :=
  inputFiles.any fun inputFile =>
    outputFiles.any fun outputFile =>
      jsStartsWith inputFile (stripTrailingStars outputFile)

/-- `lib/Operation.js`: the derived action string
`` `${input ? input.join(',') : '(no input)'} > ${output.join(',')}` ``.
`none` models passing `null` for `input` (the default parameter `[]`
applies only to `undefined`, so an absent `input` is `some []` here). -/
def deriveAction (input : Option (List String)) (output : List String) : String :=
  (match input with
   | none => "(no input)"
   | some xs => joinComma xs) ++ " > " ++ joinComma output

/-- An `Operation` instance as produced by the `lib/Operation.js`
constructor (the `run` callable is irrelevant to the claims). -/
structure Operation where
  workingDirectory : String
  action : String
  input : List String
  output : List String
  ttl : Option Int
  compress : Bool
deriving DecidableEq, Repr

/-- The `lib/Operation.js` constructor:
`action || derived`, `arrify(input)`, `arrify(output)`.  An empty `action`
string is falsy in JavaScript, so it also falls back to the derived
action; `arrify null = []`. -/
def mkOperation (actionArg : Option String) (inputArg : Option (List String))
    (output : List String) (ttl : Option Int) (compress : Bool)
    (workingDirectory : String) : Operation :=
  { workingDirectory := workingDirectory
    action :=
      match actionArg with
      | some a => if a = "" then deriveAction inputArg output else a
      | none => deriveAction inputArg output
    input := inputArg.getD []
    output := output
    ttl := ttl
    compress := compress }

/-- Non-`$ENV` inputs (`Operation.inputFiles`). -/
def Operation.inputFiles (op : Operation) : List String :=
  op.input.filter fun i => !jsStartsWith i "$"

/-- `$ENV` input names with the `$` stripped (`Operation.inputEnvs`). -/
def Operation.inputEnvs (op : Operation) : List String :=
  (op.input.filter fun i => jsStartsWith i "$").map fun i => String.mk (i.data.drop 1)

/-- The external collaborators of the cache engine, treated as black boxes
per the specification: the content hasher `jummy(paths, {wd})`, the string
hasher `hasha`, `hasha` applied to a string array, the environment
(`process.env`), and the `slugs` package. -/
structure HashEnv where
  jummy : List String → String → String
  hasha : String → String
  hashaList : List String → String
  envVar : String → Option String
  slug : String → String

/-- `Operation.getFileHash`: `jummy(this.inputFiles, {wd})`. -/
def Operation.getFileHash (E : HashEnv) (op : Operation) : String :=
  E.jummy op.inputFiles op.workingDirectory

/-- `Operation.getEnvs`: the referenced environment variables with their
current values (`none` models an unset variable, i.e. `undefined`). -/
def Operation.getEnvs (E : HashEnv) (op : Operation) : List (String × Option String) :=
  op.inputEnvs.map fun e => (e, E.envVar e)

/-- Stand-in for `JSON.stringify({fileHash, envs})` feeding the opaque
`hasha`: a concrete encoding of the file hash and the env map. -/
def encodeHashInput (fileHash : String) (envs : List (String × Option String)) : String :=
  "fileHash=" ++ fileHash ++ ";envs=" ++
    String.intercalate ";" (envs.map fun kv => kv.1 ++ ":" ++ kv.2.getD "undefined")

/-- `Operation.getInputHash`: hash of the combined file hash and env values. -/
def Operation.getInputHash (E : HashEnv) (op : Operation) : String :=
  E.hasha (encodeHashInput (op.getFileHash E) (op.getEnvs E))

/-- `Operation.getOutputHash`: `hasha(this.output)`. -/
def Operation.getOutputHash (E : HashEnv) (op : Operation) : String :=
  E.hashaList op.output

/-- `Operation.getHashes`: the object `{inputHash, outputHash}`, modelled
as an association list so that property reads on it can miss (JavaScript
destructuring of an absent key yields `undefined`). -/
def Operation.getHashes (E : HashEnv) (op : Operation) : List (String × String) :=
  [("inputHash", op.getInputHash E), ("outputHash", op.getOutputHash E)]

/-- A `Result` instance (`lib/Result.js`).  Fields that the constructor
defaults to `null` are `Option`s. -/
structure ResultV where
  fileHash : Option String
  action : Option String
  outputHash : Option String
  expires : Int
  filename : Option String
  compress : Option Bool
  fileSize : Option Int
  runtime : Option Int
  workingDirectory : Option String
  created : Int
deriving DecidableEq, Repr

/-- The `lib/Result.js` constructor.
`expires = expires || (ttl === null ? -1 : Date.now() + ttl)` and
`created = created || Date.now()`; note `0` is falsy in JavaScript, so a
zero `expires`/`created` argument also falls back. -/
def mkResult (fileHash action outputHash : Option String) (ttl : Option Int)
    (expiresArg : Option Int) (filename : Option String) (compress : Option Bool)
    (fileSize runtime : Option Int) (workingDirectory : Option String)
    (createdArg : Option Int) (now : Int) : ResultV :=
  let fallbackExpires : Int := match ttl with
    | none => -1
    | some t => now + t
  { fileHash := fileHash
    action := action
    outputHash := outputHash
    expires :=
      match expiresArg with
      | some e => if e = 0 then fallbackExpires else e
      | none => fallbackExpires
    filename := filename
    compress := compress
    fileSize := fileSize
    runtime := runtime
    workingDirectory := workingDirectory
    created :=
      match createdArg with
      | some c => if c = 0 then now else c
      | none => now }

/-- `new Result(operation)` as done by `Runner.prepareResult`: the
constructor destructures `action`, `ttl`, `compress` and
`workingDirectory` from the operation; `fileHash`, `outputHash`,
`expires`, `filename`, `fileSize`, `runtime` and `created` are absent on
an `Operation`, so they take their defaults. -/
def resultOfOperation (op : Operation) (now : Int) : ResultV :=
  mkResult none (some op.action) none op.ttl none none (some op.compress)
    none none (some op.workingDirectory) none now

/-- `null`-tolerant string field serialization for `toDocument`. -/
def optStrVal : Option String → JsVal
  | some s => .str s
  | none => .null

/-- `null`-tolerant numeric field serialization for `toDocument`. -/
def optNumVal : Option Int → JsVal
  | some n => .num n
  | none => .null

/-- `null`-tolerant boolean field serialization for `toDocument`. -/
def optBoolVal : Option Bool → JsVal
  | some b => .boolean b
  | none => .null

/-- `Result.toDocument` (`lib/Result.js`): `_.pick` of the nine listed
properties.  Note the input fingerprint is serialized under the key
`"fileHash"`; there is no `"inputHash"` key. -/
def ResultV.toDocument (r : ResultV) : Doc :=
  [("action", optStrVal r.action),
   ("fileHash", optStrVal r.fileHash),
   ("outputHash", optStrVal r.outputHash),
   ("created", .num r.created),
   ("expires", .num r.expires),
   ("filename", optStrVal r.filename),
   ("compress", optBoolVal r.compress),
   ("fileSize", optNumVal r.fileSize),
   ("runtime", optNumVal r.runtime)]

/-- Typed reads on documents used by `Result.fromDocument`. -/
def docStr (doc : Doc) (key : String) : Option String :=
  match docGet doc key with
  | some (.str s) => some s
  | _ => none

/-- Numeric read on a document (absent, `null` and non-numeric reads give
`none`). -/
def docNum (doc : Doc) (key : String) : Option Int :=
  match docGet doc key with
  | some (.num n) => some n
  | _ => none

/-- Boolean read on a document. -/
def docBool (doc : Doc) (key : String) : Option Bool :=
  match docGet doc key with
  | some (.boolean b) => some b
  | _ => none

/-- `Result.fromDocument({workingDirectory}, doc)`: the constructor applied
to the document's fields merged with the caller's working directory. -/
def ResultV.fromDocument (doc : Doc) (workingDirectory : Option String) (now : Int) : ResultV :=
  mkResult (docStr doc "fileHash") (docStr doc "action") (docStr doc "outputHash")
    (docNum doc "ttl") (docNum doc "expires") (docStr doc "filename")
    (docBool doc "compress") (docNum doc "fileSize") (docNum doc "runtime")
    workingDirectory (docNum doc "created") now

/-- `lib/util/hasExpired.js`:
`({expires}) => expires !== -1 && expires <= Date.now()`.
An absent `expires` reads as `undefined`, and `undefined <= now` is
`false` (NaN comparison); `null` and booleans coerce to `0` and `0`/`1`;
a string coerces through `ToNumber` (NaN, hence `false`, when it is not
numeric). -/
def hasExpired (now : Int) (doc : Doc) : Bool :=
  match docGet doc "expires" with
  | none => false
  | some (.num e) => decide (e ≠ -1) && decide (e ≤ now)
  | some .null => decide ((0 : Int) ≤ now)
  | some (.boolean b) => decide ((if b then (1 : Int) else 0) ≤ now)
  | some (.str s) =>
    match s.toInt? with
    | some n => decide (n ≤ now)
    | none => false

/-- lodash `isMatch(doc, constraints)` for flat string/number constraints:
every constraint key must be present on the document with an equal value. -/
def isMatch (doc : Doc) (constraints : List (String × JsVal)) : Bool :=
  constraints.all fun kv => decide (docGet doc kv.1 = some kv.2)

/-- `Query.fromOperation` (`lib/Query.js`): the constraint object
`{inputHash, outputHash, action}` built from the operation's hashes.
Note the keys: the input fingerprint is queried under `"inputHash"`. -/
def queryConstraints (E : HashEnv) (op : Operation) : List (String × JsVal) :=
  [("inputHash", .str (op.getInputHash E)),
   ("outputHash", .str (op.getOutputHash E)),
   ("action", .str op.action)]

/-- `Query.predicate` (`lib/Query.js`):
`doc => isMatch(doc, this.constraints) && !hasExpired(doc)`. -/
def queryPredicate (now : Int) (constraints : List (String × JsVal)) (doc : Doc) : Bool :=
  isMatch doc constraints && !hasExpired now doc

/-- The ways the modelled cache code can throw. -/
inductive JsErr where
  | typeError
  | assertionError
  | fileExistsError
deriving DecidableEq, Repr

/-- `Cache.getAbsolutePath` without the assertion: `path.join(workspace, f)`. -/
def getAbsolutePath (workspace filename : String) : String :=
  workspace ++ "/" ++ filename

/-- `Cache.getResult`: build the query from the operation, `findOne` it
against the index, and treat a match whose archive file is missing from
the workspace as a miss (`null`).  `assert(filename)` throws on a falsy
filename, and `path.join` throws a `TypeError` on a non-string one.
`fsExists` models `pathExists` on the workspace filesystem. -/
def getResult (E : HashEnv) (fsExists : String → Bool) (workspace : String)
    (index : List Doc) (now : Int) (op : Operation) : Except JsErr (Option ResultV) :=
  match index.find? (queryPredicate now (queryConstraints E op)) with
  | none => .ok none
  | some doc =>
    match docGet doc "filename" with
    | none => .error .assertionError
    | some .null => .error .assertionError
    | some (.str fn) =>
      if fn = "" then .error .assertionError
      else if fsExists (getAbsolutePath workspace fn) then
        .ok (some (ResultV.fromDocument doc (some op.workingDirectory) now))
      else .ok none
    | some (.num n) => if n = 0 then .error .assertionError else .error .typeError
    | some (.boolean b) => if b then .error .typeError else .error .assertionError

/-- The `i`-th candidate filename tried by `incrementFilename`:
the base name, a `-i` suffix for `i ≥ 1`, then the extension. -/
def tryName (base ext : String) (i : Nat) : String :=
  base ++ (if i = 0 then "" else "-" ++ toString i) ++ ext

/-- The `promiseRetry` loop of `lib/util/incrementFilename.js`: try the
candidate with the current increment; if a file with that name exists,
bump the increment and retry while retry fuel remains, otherwise fail
with the `'file exists'` error. -/
def incLoop (existsF : String → Bool) (base ext : String) : Nat → Nat → Except JsErr String
  | i, 0 =>
    if existsF (tryName base ext i) then .error .fileExistsError
    else .ok (tryName base ext i)
  | i, fuel + 1 =>
    if existsF (tryName base ext i) then incLoop existsF base ext (i + 1) fuel
    else .ok (tryName base ext i)

/-- `lib/util/incrementFilename.js`: split the filename at its last dot,
then run the retry loop with `retries: 100` (one initial attempt plus at
most 100 retries).  `existsF` models `p => pathExists(getAbsolutePath(p))`,
the filesystem existence check on the workspace. -/
def incrementFilename (filename : String) (existsF : String → Bool) : Except JsErr String :=
  incLoop existsF (basenameWithoutExtension filename) (extnamePart filename) 0 100

/-- The filename part of `Runner.prepareResult` (`lib/Runner.js:37-44`),
parametrized by the hashes object it received from
`operation.getHashes()`: read the `fileHash` property (destructuring an
absent key yields `undefined`, and `undefined.substring` throws a
`TypeError`), build `slug(action)[0:32] + "-" + fileHash[0:4] + "." +
(compress ? "tar.gz" : "tar")`, and resolve collisions with
`incrementFilename`. -/
def prepareFilename (slugF : String → String) (hashes : List (String × String))
    (action : String) (compress : Bool) (existsF : String → Bool) : Except JsErr String :=
  match List.lookup "fileHash" hashes with
  | none => .error .typeError
  | some fh =>
    incrementFilename
      (jsTake (slugF action) 32 ++ "-" ++ jsTake fh 4 ++ "." ++
        (if compress then "tar.gz" else "tar"))
      existsF

/-- `Runner.prepareResult` (`lib/Runner.js:29-47`): build `new
Result(operation)`, assign `fileHash`/`outputHash` from
`operation.getHashes()` (which actually returns
`{inputHash, outputHash}`), then assign the collision-free filename. -/
def prepareResult (E : HashEnv) (op : Operation) (existsF : String → Bool)
    (now : Int) : Except JsErr ResultV :=
  let hashes := op.getHashes E
  let r0 := resultOfOperation op now
  let r1 := { r0 with
    fileHash := List.lookup "fileHash" hashes
    outputHash := List.lookup "outputHash" hashes }
  (prepareFilename E.slug hashes op.action op.compress existsF).map
    fun fn => { r1 with filename := some fn }

/-- `Math.log10` lifted to `JsNum`: `log10(NaN) = NaN`,
`log10(+∞) = +∞`, `log10(-∞) = NaN`; on finite arguments it is the real
`Math.log10`, which is transcendental and therefore kept as the parameter
`f : Rat → JsNum` (the IEEE facts a proof needs — `f q = NaN` for
`q < 0`, `f 0 = -∞`, `f 1 = 0` — appear as hypotheses). -/
def jsLog10 (f : Rat → JsNum) : JsNum → JsNum
  | .nan => .nan
  | .posInf => .posInf
  | .negInf => .nan
  | .fin q => f q

/-- A result as scored by the eviction policy: the fields
`getScoreForResult` reads, as JavaScript numbers (they come from index
documents and may be `null`, i.e. coerced through arithmetic). -/
structure ScoreResult where
  action : String
  created : JsNum
  fileSize : JsNum
  runtime : JsNum
deriving DecidableEq, Repr

/-- `31 * 24 * 60 * 60 * 1000` milliseconds: one "month" in the age term. -/
def monthMs : Rat := 31 * 24 * 60 * 60 * 1000

/-- `lib/util/getScoreForResult.js`:
`age + size + runtime + redundant` where
`age = created / monthMs`, `size = -log10(fileSize)`,
`runtime = 2 * log10(runtime)` and `redundant = -20` when another result
shares the action with a strictly newer `created`.  The sum is the plain
IEEE sum — there is no filtering of NaN or infinite components. -/
def getScoreForResult (f : Rat → JsNum) (result : ScoreResult)
    (allResults : Option (List ScoreResult)) : JsNum :=
  let age := result.created.div (.fin monthMs)
  let size := (jsLog10 f result.fileSize).neg
  let runtime := (jsLog10 f result.runtime).mul (.fin 2)
  let redundant : JsNum :=
    match allResults with
    | none => .fin 0
    | some l =>
      if l.isEmpty then .fin 0
      else if l.any fun o => o.action == result.action && o.created.gtB result.created
      then .fin (-20) else .fin 0
  ((age.add size).add runtime).add redundant

/-- Modelled from the spec: the score as the specification describes it —
"the sum of only the finite components among -log10(fileSize),
2*log10(runtime), created/(31 days in milliseconds), and the -20
redundancy penalty — any NaN or non-finite component is excluded from the
sum".  Comparison definition for the refinement claim C9. -/
def getScoreForResultSpec (f : Rat → JsNum) (result : ScoreResult)
    (allResults : Option (List ScoreResult)) : JsNum :=
  let age := result.created.div (.fin monthMs)
  let size := (jsLog10 f result.fileSize).neg
  let runtime := (jsLog10 f result.runtime).mul (.fin 2)
  let redundant : JsNum :=
    match allResults with
    | none => .fin 0
    | some l =>
      if l.isEmpty then .fin 0
      else if l.any fun o => o.action == result.action && o.created.gtB result.created
      then .fin (-20) else .fin 0
  (([age, size, runtime, redundant].filter JsNum.isFiniteB).foldl JsNum.add (.fin 0))

/-- A concrete instance of `Math.log10` on finite arguments, correct at
the sample points a witness evaluates it at: NaN for negative arguments,
`-∞` at `0`, `0` at `1`, `1` at `10`. -/
def log10Sample : Rat → JsNum := fun q =>
  if q < 0 then .nan
  else if q = 0 then .negInf
  else if q = 1 then .fin 0
  else if q = 10 then .fin 1
  else .fin (1 / 2)

/-- The removal loop of `lib/util/getRedundantResults.js`:
`while (currentTotalSize > allowedMaxSize && sortedResults.length) { shift,
push, currentTotalSize -= fileSize }`, generic in the result type with a
`fileSize` accessor. -/
def removeLoop {α : Type} (fileSize : α → Int) (allowedMaxSize : Int) :
    Int → List α → List α
  | _, [] => []
  | currentTotalSize, r :: rs =>
    if currentTotalSize ≤ allowedMaxSize then []
    else r :: removeLoop fileSize allowedMaxSize (currentTotalSize - fileSize r) rs

/-- `lib/util/getRedundantResults.js`: return `[]` when the current size
is within budget; otherwise score every result once against the whole
pre-removal list (`module.exports.getScore(result, results)` — the score
function is the module's pluggable `getScore` property, hence a
parameter), sort ascending by score (`_.sortBy(mapped, 'score')`,
modelled by the stable `insertionSort` on the score projection), project
back to the results, and run the removal loop.  `sortLe` is the
comparison `sortBy` sorts by. -/
def getRedundantResults {α σ : Type} (getScore : α → List α → σ)
    (sortLe : σ → σ → Bool) (fileSize : α → Int) (results : List α)
    (allowedMaxSize currentTotalSize : Int) : List α :=
  if currentTotalSize ≤ allowedMaxSize then []
  else
    let mapped := results.map fun r => (r, getScore r results)
    let sorted :=
      (List.insertionSort (fun a b : α × σ => sortLe a.2 b.2 = true) mapped).map
        fun p => p.1
    removeLoop fileSize allowedMaxSize currentTotalSize sorted

/-- `lib/Step.js` statuses (`STATUS_RUN`, `STATUS_RESTORE`,
`STATUS_SKIP`); a `Step.status` of `null` is `Option.none`. -/
inductive StepStatus where
  | run
  | restore
  | skip
deriving DecidableEq, Repr

/-- The operation carried by a step, restricted to what the flow scheduler
reads: the declared input files and output patterns, plus `cached`, which
records the Boolean outcome of `cache.hasResult(operation)` for this
operation during the evaluation pass (lookups do not mutate the cache, so
the outcome is fixed for the pass). -/
structure Oper where
  inputFiles : List String
  output : List String
  cached : Bool
deriving DecidableEq, Repr

/-- A `Step` (`lib/Step.js`): the flow models cacheable steps, so
`operation` is always present. -/
structure Step where
  operation : Oper
  isIntermediate : Bool
  index : Option Int
  status : Option StepStatus
  forward : List (Option Int)
  evaluated : Bool
deriving DecidableEq, Repr

/-- The `lib/Step.js` constructor: intermediate steps default to
`STATUS_SKIP`, others to `null`; `forward` starts empty and `evaluated`
false. -/
def mkStep (operation : Oper) (isIntermediate : Bool) (index : Option Int) : Step :=
  { operation := operation
    isIntermediate := isIntermediate
    index := index
    status := if isIntermediate then some .skip else none
    forward := []
    evaluated := false }

/-- `CacheFlow.evaluateStep`:
`step.status = await cache.hasResult(step.operation) ? RESTORE : RUN`. -/
def evaluateStep (s : Step) : Step :=
  { s with status := some (if s.operation.cached then .restore else .run) }

/-- `Number(null) = 0`: the value JavaScript's `>` uses for a `null`
step index. -/
def jsIdx : Option Int → Int
  | none => 0
  | some v => v

/-- The filter predicate of `CacheFlow.evaluateIntermediateDependencies`:
keep intermediate steps not beyond the final step's index whose outputs
the final step's input files depend on. -/
def depKeep (finalStep s : Step) : Bool :=
  s.isIntermediate &&
  !(finalStep.index.isSome && decide (finalStep.index.getD 0 < jsIdx s.index)) &&
  isDependency finalStep.operation.inputFiles s.operation.output

/-- Whether a step's status has already been resolved to run or restore. -/
def statusResolved (s : Step) : Bool :=
  decide (s.status = some .run) || decide (s.status = some .restore)

/-- The loop body of `evaluateIntermediateDependencies` applied to one
step: dependencies already `RUN`/`RESTORE` are left alone; when the final
step resolved to `RESTORE` the dependency is skipped and the final step
pushed onto its `forward` list; otherwise the dependency is itself
resolved through the cache lookup.  (The source first `filter`s the
dependencies and then mutates them in a `for` loop; the filter predicate
only reads fields the loop never writes, so this per-element form is the
same function.) -/
def evalDepsStep (finalStep s : Step) : Step :=
  if depKeep finalStep s then
    if statusResolved s then s
    else if finalStep.status = some .restore then
      { s with status := some .skip, forward := s.forward ++ [finalStep.index] }
    else evaluateStep s
  else s

/-- `CacheFlow.evaluateIntermediateDependencies(finalStep)` over the
step list. -/
def evaluateIntermediateDependencies (finalStep : Step) (steps : List Step) : List Step :=
  steps.map (evalDepsStep finalStep)

/-- One pass of `CacheFlow.evaluate`'s `for` loop starting at position
`i` with the given iteration fuel: skip intermediate or already-evaluated
steps; otherwise resolve the step, resolve its intermediate dependencies
against the whole list, and flag it evaluated. -/
def evalGo : Nat → List Step → Nat → List Step
  | 0, steps, _ => steps
  | fuel + 1, steps, i =>
    match steps[i]? with
    | none => steps
    | some s =>
      if s.isIntermediate || s.evaluated then evalGo fuel steps (i + 1)
      else
        let s1 := evaluateStep s
        let steps2 := evaluateIntermediateDependencies s1 (steps.set i s1)
        evalGo fuel (steps2.set i { s1 with evaluated := true }) (i + 1)

/-- `CacheFlow.evaluate`: the `for` loop over all steps. -/
def evaluateFlow (steps : List Step) : List Step :=
  evalGo steps.length steps 0

/-- `CacheFlow.add` converting step specs (operation, isIntermediate) to
`Step`s with consecutive indexes continuing from the existing list
(`index = i + this.steps.length`). -/
def convertSteps (existingLen : Nat) : List (Oper × Bool) → List Step
  | [] => []
  | spec :: rest =>
    mkStep spec.1 spec.2 (some (existingLen : Nat)) :: convertSteps (existingLen + 1) rest

/-- `CacheFlow.add(specs)`: append the converted steps, then evaluate. -/
def addSteps (steps : List Step) (specs : List (Oper × Bool)) : List Step :=
  evaluateFlow (steps ++ convertSteps steps.length specs)

/-- What `CacheFlow.runStep` does for a step, abstracted to the action it
takes on the workspace. -/
inductive RunAction where
  | restoredFromCache
  | ranOperation
  | skippedForward
  | noAction
deriving DecidableEq, Repr

/-- `CacheFlow.runStep` (`lib/CacheFlow.js:122-139`): `RESTORE` extracts
the archive via `cache.restore`, `RUN` executes the operation (or raw
callable), `SKIP` only emits the forward reference (`cache.emitForward()`)
and returns `null` — no callable runs and nothing is extracted. -/
def runStep (s : Step) : RunAction :=
  match s.status with
  | some .restore => .restoredFromCache
  | some .run => .ranOperation
  | some .skip => .skippedForward
  | none => .noAction

/-- `CacheFlow.run` after the sanity check: the sequential actions taken,
`none` when an unresolved step makes `sanityCheck` throw. -/
def runFlow (steps : List Step) : Option (List RunAction) :=
  if steps.any fun s => s.status = none then none
  else some (steps.map runStep)

/-- Run/restore decisions protected from re-evaluation: the scheduler
invariant that every step whose status is `RUN` or `RESTORE` is either
intermediate (so `evaluate` never touches it directly and the dependency
loop leaves resolved steps alone) or flagged `evaluated`. -/
def protectedSteps (steps : List Step) : Bool :=
  steps.all fun s => !statusResolved s || (s.isIntermediate || s.evaluated)

/-- Computable lexicographic comparison on character lists. -/
def charListLe : List Char → List Char → Bool
  | [], _ => true
  | _ :: _, [] => false
  | a :: as, b :: bs => if a = b then charListLe as bs else decide (a < b)

/-- Computable lexicographic comparison on strings. -/
def strLeB (a b : String) : Bool := charListLe a.data b.data

/-- Modelled from the spec: the derived action as the specification
describes it — built "from the sorted input path list and the sorted
output path list", joined by commas.  Comparison definition for claim C8
(the source does not sort). -/
def specDerivedAction (input : Option (List String)) (output : List String) : String :=
  (match input with
   | none => "(no input)"
   | some xs => joinComma (List.insertionSort (fun a b : String => strLeB a b = true) xs)) ++
  " > " ++ joinComma (List.insertionSort (fun a b : String => strLeB a b = true) output)

/-- The candidate archive name built by `Runner.prepareResult`:
`slug(action)[0:32] + "-" + fileHash[0:4] + "." + ext`. -/
def candidateName (slugF : String → String) (action fh : String) (compress : Bool) : String :=
  jsTake (slugF action) 32 ++ "-" ++ jsTake fh 4 ++ "." ++
    (if compress then "tar.gz" else "tar")

/-- Total size of a result list, as summed by `Cache.maintainMaxSize`. -/
def sumSizes {α : Type} (fileSize : α → Int) (l : List α) : Int :=
  (l.map fileSize).sum

/-- A concrete instantiation of the external hash collaborators, used by
the witnesses (the claims hold for every instantiation). -/
def trivialHashEnv : HashEnv :=
  { jummy := fun _ _ => "h"
    hasha := fun _ => "H"
    hashaList := fun _ => "O"
    envVar := fun _ => none
    slug := id }

/-- A sample operation with `ttl = -1`, for the claim C4 witness. -/
def opTtlNeg : Operation :=
  mkOperation (some "op") (some ["a.txt"]) ["b.txt"] (some (-1)) false "wd"

/-- A sample operation for the claim C5 witness. -/
def opPlain : Operation :=
  mkOperation (some "op") (some ["a.txt"]) ["b.txt"] none false "wd"

/-- A document matching `opPlain`'s query under `trivialHashEnv`,
never expiring, whose archive file will be reported missing. -/
def docPlain : Doc :=
  [("inputHash", .str "H"), ("outputHash", .str "O"), ("action", .str "op"),
   ("expires", .num (-1)), ("filename", .str "op-ab.tar")]

/-- A sample scored result whose `runtime` is negative, so that
`Math.log10(runtime)` is NaN (claim C9 witness). -/
def nanScoreSample : ScoreResult :=
  { action := "op", created := .fin 0, fileSize := .fin 1, runtime := .fin (-1) }

/-- A sample evaluated, restored step for the claim C10 witness. -/
def stepResolvedSample : Step :=
  { operation := { inputFiles := ["x"], output := ["y"], cached := true }
    isIntermediate := false
    index := some 0
    status := some .restore
    forward := []
    evaluated := true }

/-! ## Helper lemmas -/

theorem isPrefixOf_iff_exists_append (l₁ l₂ : List Char) :
    l₁.isPrefixOf l₂ = true ↔ ∃ t, l₁ ++ t = l₂ := by
  induction l₁ generalizing l₂ with
  | nil => simp [List.isPrefixOf]
  | cons a as ih =>
    cases l₂ with
    | nil => simp [List.isPrefixOf]
    | cons b bs =>
      simp only [List.isPrefixOf, Bool.and_eq_true, beq_iff_eq, ih, List.cons_append,
        List.cons.injEq]
      constructor
      · rintro ⟨rfl, t, rfl⟩
        exact ⟨t, rfl, rfl⟩
      · rintro ⟨t, rfl, rfl⟩
        exact ⟨rfl, t, rfl⟩

theorem JsNum.add_nan (a : JsNum) : a.add .nan = .nan := by
  cases a <;> rfl

theorem JsNum.nan_add (a : JsNum) : JsNum.add .nan a = .nan := by
  cases a <;> rfl

/-! ## Claim theorems -/

/-- C6: `isDependency(inputs, outputs)` is true exactly when some input
path `P` and some output pattern `Q` satisfy: `P` starts with `Q` after
stripping trailing `'*'` characters from `Q` (equality of `P` and the
stripped `Q` being the `rest = []` case); in particular it is false when
either list is empty. -/
theorem isDependency_characterization (inputs outputs : List String) :
    (isDependency inputs outputs = true ↔
      ∃ p ∈ inputs, ∃ q ∈ outputs, ∃ rest : List Char,
        p.data = (stripTrailingStars q).data ++ rest) ∧
    ((inputs = [] ∨ outputs = []) → isDependency inputs outputs = false) := by
  constructor
  · simp only [isDependency, List.any_eq_true, jsStartsWith, isPrefixOf_iff_exists_append]
    constructor
    · rintro ⟨p, hp, q, hq, t, ht⟩
      exact ⟨p, hp, q, hq, t, ht.symm⟩
    · rintro ⟨p, hp, q, hq, t, ht⟩
      exact ⟨p, hp, q, hq, t, ht.symm⟩
  · rintro (rfl | rfl)
    · rfl
    · simp [isDependency]

theorem isDependency_characterization_witness :
    isDependency ["foo/bar"] ["foo*"] = true ∧ isDependency ["foo/bar"] [] = false := by
  constructor
  · exact (isDependency_characterization ["foo/bar"] ["foo*"]).1.mpr
      ⟨"foo/bar", by decide, "foo*", by decide, "/bar".data, by decide⟩
  · exact (isDependency_characterization ["foo/bar"] []).2 (Or.inr rfl)

/-- C8 counterexample: the derived action is built from the input and
output lists in the order given, not sorted — with inputs `["b","a"]` and
outputs `["d","c"]` the code derives `"b,a > d,c"`, while the claimed
sorted derivation gives `"a,b > c,d"`. -/
theorem action_derivation_counterexample :
    (mkOperation none (some ["b", "a"]) ["d", "c"] none false "wd").action = "b,a > d,c" ∧
    specDerivedAction (some ["b", "a"]) ["d", "c"] = "a,b > c,d" ∧
    (mkOperation none (some ["b", "a"]) ["d", "c"] none false "wd").action ≠
      specDerivedAction (some ["b", "a"]) ["d", "c"] := by
  have h1 : (mkOperation none (some ["b", "a"]) ["d", "c"] none false "wd").action =
      "b,a > d,c" := by decide
  have h2 : specDerivedAction (some ["b", "a"]) ["d", "c"] = "a,b > c,d" := by decide
  exact ⟨h1, h2, by rw [h1, h2]; decide⟩

/-- C8 (amended): for every Operation constructed without an explicit
action string (or with the falsy empty string), the derived action is
`"<inputs> > <outputs>"` with the paths of each list joined by commas in
the order given (no sorting), and `"(no input)"` standing in for a `null`
input list; an explicitly supplied non-empty action is used as-is. -/
theorem action_derivation_amended (inputArg : Option (List String))
    (output : List String) (ttl : Option Int) (compress : Bool) (wd : String) :
    (mkOperation none inputArg output ttl compress wd).action =
      deriveAction inputArg output ∧
    (mkOperation (some "") inputArg output ttl compress wd).action =
      deriveAction inputArg output ∧
    (∀ a : String, a ≠ "" →
      (mkOperation (some a) inputArg output ttl compress wd).action = a) := by
  refine ⟨rfl, rfl, fun a ha => ?_⟩
  simp [mkOperation, ha]

theorem action_derivation_amended_witness :
    ("go" : String) ≠ "" ∧
    (mkOperation (some "go") (some ["b", "a"]) ["c"] none false "wd").action = "go" :=
  ⟨by decide, (action_derivation_amended (some ["b", "a"]) ["c"] none false "wd").2.2
    "go" (by decide)⟩

/-- C9 counterexample: with `runtime = -1` the runtime component
`2 * log10(runtime)` is NaN; the code's score is the plain sum and
evaluates to NaN, while the claimed NaN-excluding sum evaluates to `0` —
non-finite components are not excluded. -/
theorem score_nan_counterexample :
    getScoreForResult log10Sample nanScoreSample none = .nan ∧
    getScoreForResultSpec log10Sample nanScoreSample none = .fin 0 ∧
    getScoreForResult log10Sample nanScoreSample none ≠
      getScoreForResultSpec log10Sample nanScoreSample none := by
  have h1 : getScoreForResult log10Sample nanScoreSample none = .nan := by
    norm_num [getScoreForResult, nanScoreSample, log10Sample, jsLog10, JsNum.div,
      JsNum.mul, JsNum.neg, JsNum.add, monthMs]
  have h2 : getScoreForResultSpec log10Sample nanScoreSample none = .fin 0 := by
    norm_num [getScoreForResultSpec, nanScoreSample, log10Sample, jsLog10, JsNum.div,
      JsNum.mul, JsNum.neg, JsNum.add, JsNum.isFiniteB, monthMs, List.filter, List.foldl]
  exact ⟨h1, h2, by rw [h1, h2]; exact fun h => JsNum.noConfusion h⟩

/-- C9 (amended): the eviction score is the plain IEEE sum of the four
components `created/monthMs`, `-log10(fileSize)`, `2*log10(runtime)` and
the redundancy penalty, with no finiteness filtering; in particular
whenever `log10(runtime)` is NaN the whole score is NaN. -/
theorem score_nan_poisons (f : Rat → JsNum) (r : ScoreResult)
    (ctx : Option (List ScoreResult)) (h : jsLog10 f r.runtime = .nan) :
    getScoreForResult f r ctx = .nan := by
  unfold getScoreForResult
  simp only [h]
  rw [show JsNum.mul .nan (.fin 2) = .nan from rfl, JsNum.add_nan, JsNum.nan_add]

theorem score_nan_poisons_witness :
    jsLog10 log10Sample nanScoreSample.runtime = .nan ∧
    getScoreForResult log10Sample nanScoreSample none = .nan :=
  ⟨by decide, score_nan_poisons log10Sample nanScoreSample none (by decide)⟩

/-- C1 (code bug): the store/lookup round trip fails on this code.
`Runner.prepareResult` destructures `fileHash` from
`operation.getHashes()`, but `getHashes` returns `{inputHash,
outputHash}`, so the destructured value is `undefined` and
`.substring(0, 4)` throws a `TypeError` — no store succeeds.  Moreover,
even granting a stored record, `Result.toDocument` serializes the input
fingerprint under the key `"fileHash"` while `Query.fromOperation`
matches on the key `"inputHash"`, so no document produced by
`Result.toDocument` ever satisfies the lookup predicate of any
operation: lookup after store always misses. -/
theorem store_lookup_roundtrip_bug :
    (∀ (E : HashEnv) (op : Operation) (existsF : String → Bool) (now : Int),
      prepareResult E op existsF now = .error .typeError) ∧
    (∀ (r : ResultV) (E : HashEnv) (op : Operation) (now : Int),
      queryPredicate now (queryConstraints E op) r.toDocument = false) :=
  ⟨fun _ _ _ _ => rfl, fun _ _ _ _ => rfl⟩

/-- C4: the lookup predicate only accepts a record whose `expires` field is
the `-1` sentinel or strictly greater than the current time; and a Result
stored with `ttl = -1` at time `t ≥ 1` (its expiry `t - 1` has already
passed) is never returned by a later lookup, even when its archive file
still exists on disk. -/
theorem lookup_excludes_expired :
    (∀ (now : Int) (cs : List (String × JsVal)) (doc : Doc) (e : Int),
      docGet doc "expires" = some (.num e) →
      queryPredicate now cs doc = true →
      e = -1 ∨ now < e) ∧
    (∀ (E : HashEnv) (ws : String) (op queryOp : Operation) (t t' : Int)
      (fh oh fn : Option String) (cp : Option Bool) (fs rt : Option Int)
      (wd : Option String),
      op.ttl = some (-1) → 1 ≤ t → t ≤ t' →
      getResult E (fun _ => true) ws
        [(mkResult fh (some op.action) oh op.ttl none fn cp fs rt wd none t).toDocument]
        t' queryOp = .ok none) := by
  constructor
  · intro now cs doc e hget hpred
    have hexp : hasExpired now doc = false := by
      rcases hb : hasExpired now doc with _ | _
      · rfl
      · rw [queryPredicate, hb] at hpred
        simp at hpred
    rw [hasExpired, hget] at hexp
    simp only [Bool.and_eq_false_iff, decide_eq_false_iff_not, not_not] at hexp
    rcases hexp with h | h
    · exact Or.inl h
    · exact Or.inr (by omega)
  · intro E ws op queryOp t t' fh oh fn cp fs rt wd httl ht htt
    have hexpval : (mkResult fh (some op.action) oh op.ttl none fn cp fs rt wd none t).expires
        = t + (-1) := by
      rw [httl]; rfl
    rw [getResult]
    have hexp : hasExpired t'
        (mkResult fh (some op.action) oh op.ttl none fn cp fs rt wd none t).toDocument
        = true := by
      have hget : docGet
          (mkResult fh (some op.action) oh op.ttl none fn cp fs rt wd none t).toDocument
          "expires" = some (.num (t + (-1))) := by
        rw [← hexpval]; rfl
      rw [hasExpired, hget]
      simp only [Bool.and_eq_true, decide_eq_true_eq]
      omega
    have hpred : queryPredicate t' (queryConstraints E queryOp)
        (mkResult fh (some op.action) oh op.ttl none fn cp fs rt wd none t).toDocument
        = false := by
      rw [queryPredicate, hexp]
      simp
    rw [List.find?_cons, hpred]
    rfl

theorem lookup_excludes_expired_witness :
    ((5 : Int) = -1 ∨ (3 : Int) < 5) ∧
    getResult trivialHashEnv (fun _ => true) "ws"
      [(mkResult none (some opTtlNeg.action) none opTtlNeg.ttl none none none none none
          none none 7).toDocument]
      9 opPlain = .ok none := by
  constructor
  · exact lookup_excludes_expired.1 3 [] [("expires", .num 5)] 5 rfl (by decide)
  · exact lookup_excludes_expired.2 trivialHashEnv "ws" opTtlNeg opPlain 7 9 none none
      none none none none none (by decide) (by decide) (by decide)

/-- C5: when the metadata record matching the lookup key exists but its
backing archive file is absent from the workspace, `Cache.getResult`
returns `null` (a miss) and does not raise an error. -/
theorem missing_archive_is_miss (E : HashEnv) (fsExists : String → Bool)
    (ws : String) (index : List Doc) (now : Int) (op : Operation) (doc : Doc)
    (fn : String)
    (hfind : index.find? (queryPredicate now (queryConstraints E op)) = some doc)
    (hfn : docGet doc "filename" = some (.str fn))
    (hne : fn ≠ "")
    (hmiss : fsExists (getAbsolutePath ws fn) = false) :
    getResult E fsExists ws index now op = .ok none := by
  rw [getResult, hfind]
  simp only [hfn]
  rw [if_neg hne, hmiss]
  rfl

theorem missing_archive_is_miss_witness :
    getResult trivialHashEnv (fun _ => false) "ws" [docPlain] 0 opPlain = .ok none :=
  missing_archive_is_miss trivialHashEnv (fun _ => false) "ws" [docPlain] 0 opPlain
    docPlain "op-ab.tar" (by decide) (by decide) (by decide) rfl

theorem incLoop_finds (existsF : String → Bool) (base ext : String) :
    ∀ (fuel i j : Nat), j ≤ fuel →
    (∀ m, m < j → existsF (tryName base ext (i + m)) = true) →
    existsF (tryName base ext (i + j)) = false →
    incLoop existsF base ext i fuel = .ok (tryName base ext (i + j)) := by
  intro fuel
  induction fuel with
  | zero =>
    intro i j hj hbefore hfree
    interval_cases j
    rw [incLoop]
    simp only [Nat.add_zero] at hfree
    simp [hfree]
  | succ fuel ih =>
    intro i j hj hbefore hfree
    rw [incLoop]
    cases j with
    | zero =>
      simp only [Nat.add_zero] at hfree
      simp [hfree]
    | succ j' =>
      have h0 : existsF (tryName base ext i) = true := by
        have := hbefore 0 (Nat.succ_pos j')
        simpa using this
      rw [h0]
      simp only [if_pos rfl]
      have hshift : ∀ m, m < j' → existsF (tryName base ext (i + 1 + m)) = true := by
        intro m hm
        have := hbefore (m + 1) (by omega)
        rwa [show i + (m + 1) = i + 1 + m by omega] at this
      have hfree' : existsF (tryName base ext (i + 1 + j')) = false := by
        rwa [show i + (j' + 1) = i + 1 + j' by omega] at hfree
      have := ih (i + 1) j' (by omega) hshift hfree'
      rw [this, show i + 1 + j' = i + (j' + 1) by omega]
      simp

theorem incLoop_exhausts (existsF : String → Bool) (base ext : String) :
    ∀ (fuel i : Nat),
    (∀ m, m ≤ fuel → existsF (tryName base ext (i + m)) = true) →
    incLoop existsF base ext i fuel = .error .fileExistsError := by
  intro fuel
  induction fuel with
  | zero =>
    intro i hall
    rw [incLoop]
    have := hall 0 (Nat.le_refl 0)
    simp only [Nat.add_zero] at this
    simp [this]
  | succ fuel ih =>
    intro i hall
    rw [incLoop]
    have h0 : existsF (tryName base ext i) = true := by
      have := hall 0 (Nat.zero_le _)
      simpa using this
    rw [h0]
    simp only [if_pos rfl]
    exact ih (i + 1) fun m hm => by
      have := hall (m + 1) (by omega)
      rwa [show i + (m + 1) = i + 1 + m by omega] at this

theorem bnwe_tar (b : String) :
    basenameWithoutExtension (b ++ ".tar") = b ∧ extnamePart (b ++ ".tar") = ".tar" := by
  have hd : (b ++ ".tar").data.reverse = 'r' :: 'a' :: 't' :: '.' :: b.data.reverse := by
    rw [String.data_append, show (".tar").data = ['.', 't', 'a', 'r'] from rfl,
      List.reverse_append]
    rfl
  constructor
  · unfold basenameWithoutExtension
    rw [hd]
    show String.mk (('.' :: b.data.reverse).drop 1).reverse = b
    rw [List.drop_one, List.tail_cons, List.reverse_reverse]
  · unfold extnamePart
    rw [if_pos, hd]
    · show String.mk ('.' :: (['r', 'a', 't'] : List Char).reverse) = ".tar"
      rfl
    · rw [String.data_append]
      exact List.elem_eq_true_of_mem (List.mem_append_right _ (by decide))

theorem bnwe_targz (b : String) :
    basenameWithoutExtension (b ++ ".tar.gz") = b ++ ".tar" ∧
    extnamePart (b ++ ".tar.gz") = ".gz" := by
  have hd : (b ++ ".tar.gz").data.reverse
      = 'z' :: 'g' :: '.' :: 'r' :: 'a' :: 't' :: '.' :: b.data.reverse := by
    rw [String.data_append, show (".tar.gz").data = ['.', 't', 'a', 'r', '.', 'g', 'z'] from rfl,
      List.reverse_append]
    rfl
  constructor
  · unfold basenameWithoutExtension
    rw [hd]
    show String.mk (('.' :: 'r' :: 'a' :: 't' :: '.' :: b.data.reverse).drop 1).reverse
      = b ++ ".tar"
    rw [List.drop_one, List.tail_cons,
      show ('r' :: 'a' :: 't' :: '.' :: b.data.reverse : List Char)
        = ['r', 'a', 't', '.'] ++ b.data.reverse from rfl,
      List.reverse_append, List.reverse_reverse,
      show (['r', 'a', 't', '.'] : List Char).reverse = (".tar").data from rfl,
      ← String.data_append]
  · unfold extnamePart
    rw [if_pos, hd]
    · show String.mk ('.' :: (['z', 'g'] : List Char).reverse) = ".gz"
      rfl
    · rw [String.data_append]
      exact List.elem_eq_true_of_mem (List.mem_append_right _ (by decide))

/-- C7: the candidate archive name is `slug(action)` truncated to 32
characters, `'-'`, the first 4 characters of the hash `prepareResult`
reads, and the extension (`tar` / `tar.gz` by compression); if that name
exists in the workspace, suffixes `-1`, `-2`, … are tried in increasing
order (before the extension's final component) and the first name not on
disk is used, the retry loop being bounded at 100 retries before the
store attempt fails with the `'file exists'` error. -/
theorem filename_collision_policy (slugF : String → String)
    (hashes : List (String × String)) (action : String) (compress : Bool)
    (existsF : String → Bool) (fh : String) (B X : String)
    (hfh : List.lookup "fileHash" hashes = some fh)
    (hB : B = basenameWithoutExtension (candidateName slugF action fh compress))
    (hX : X = extnamePart (candidateName slugF action fh compress)) :
    (tryName B X 0 = candidateName slugF action fh compress) ∧
    (∀ i, i ≤ 100 →
      (∀ m, m < i → existsF (tryName B X m) = true) →
      existsF (tryName B X i) = false →
      prepareFilename slugF hashes action compress existsF = .ok (tryName B X i)) ∧
    ((∀ m, m ≤ 100 → existsF (tryName B X m) = true) →
      prepareFilename slugF hashes action compress existsF = .error .fileExistsError) := by
  have hsplit : B ++ X = candidateName slugF action fh compress := by
    cases compress with
    | false =>
      have hc : candidateName slugF action fh false
          = (jsTake (slugF action) 32 ++ "-" ++ jsTake fh 4) ++ ".tar" := by
        unfold candidateName
        rw [if_neg (by simp), String.append_assoc,
          show ("." ++ "tar" : String) = ".tar" from rfl]
      rw [hB, hX, hc, (bnwe_tar _).1, (bnwe_tar _).2]
    | true =>
      have hc : candidateName slugF action fh true
          = (jsTake (slugF action) 32 ++ "-" ++ jsTake fh 4) ++ ".tar.gz" := by
        unfold candidateName
        rw [if_pos rfl, String.append_assoc,
          show ("." ++ "tar.gz" : String) = ".tar.gz" from rfl]
      rw [hB, hX, hc, (bnwe_targz _).1, (bnwe_targz _).2, String.append_assoc,
        show (".tar" ++ ".gz" : String) = ".tar.gz" from rfl]
  have hprep : prepareFilename slugF hashes action compress existsF
      = incLoop existsF B X 0 100 := by
    rw [prepareFilename, hfh]
    show incrementFilename (candidateName slugF action fh compress) existsF
      = incLoop existsF B X 0 100
    rw [incrementFilename, ← hB, ← hX]
  refine ⟨?_, ?_, ?_⟩
  · rw [tryName, if_pos rfl, String.append_empty, hsplit]
  · intro i hi hbefore hfree
    rw [hprep]
    have := incLoop_finds existsF B X 100 0 i hi
      (fun m hm => by simpa using hbefore m hm) (by simpa using hfree)
    simpa using this
  · intro hall
    rw [hprep]
    exact incLoop_exhausts existsF B X 100 0 fun m hm => by simpa using hall m hm

theorem filename_collision_policy_witness :
    prepareFilename id [("fileHash", "abcd1234")] "op" false
      (fun s => decide (s = "op-abcd.tar")) = .ok "op-abcd-1.tar" := by
  have h := filename_collision_policy id [("fileHash", "abcd1234")] "op" false
    (fun s => decide (s = "op-abcd.tar")) "abcd1234"
    (basenameWithoutExtension (candidateName id "op" "abcd1234" false))
    (extnamePart (candidateName id "op" "abcd1234" false))
    (by decide) rfl rfl
  have h1 := h.2.1 1 (by omega)
    (fun m hm => by
      have : m = 0 := by omega
      subst this
      decide)
    (by decide)
  have h2 : tryName (basenameWithoutExtension (candidateName id "op" "abcd1234" false))
      (extnamePart (candidateName id "op" "abcd1234" false)) 1 = "op-abcd-1.tar" := by
    decide
  rw [h1, h2]


theorem removeLoop_eq_take {α : Type} (fileSize : α → Int) (maxA : Int) :
    ∀ (l : List α) (cur : Int),
    ∃ k, removeLoop fileSize maxA cur l = l.take k ∧ k ≤ l.length := by
  intro l
  induction l with
  | nil => exact fun _ => ⟨0, rfl, Nat.le_refl 0⟩
  | cons r rs ih =>
    intro cur
    rw [removeLoop]
    by_cases h : cur ≤ maxA
    · exact ⟨0, by rw [if_pos h]; rfl, Nat.zero_le _⟩
    · obtain ⟨k, hk, hklen⟩ := ih (cur - fileSize r)
      exact ⟨k + 1, by rw [if_neg h, hk, List.take_succ_cons], by simpa using hklen⟩

theorem removeLoop_sum {α : Type} (fileSize : α → Int) (maxA : Int) :
    ∀ (l : List α) (cur : Int),
    cur - maxA ≤ sumSizes fileSize l →
    cur - maxA ≤ sumSizes fileSize (removeLoop fileSize maxA cur l) := by
  intro l
  induction l with
  | nil => exact fun _ h => h
  | cons r rs ih =>
    intro cur hsum
    rw [removeLoop]
    by_cases h : cur ≤ maxA
    · rw [if_pos h]
      simp only [sumSizes, List.map_nil, List.sum_nil]
      omega
    · rw [if_neg h]
      have hsum' : (cur - fileSize r) - maxA ≤ sumSizes fileSize rs := by
        simp only [sumSizes, List.map_cons, List.sum_cons] at hsum
        simp only [sumSizes]
        omega
      have hrec := ih (cur - fileSize r) hsum'
      simp only [sumSizes, List.map_cons, List.sum_cons] at hrec ⊢
      omega

theorem removeLoop_minimal {α : Type} (fileSize : α → Int) (maxA : Int) :
    ∀ (l : List α) (cur : Int) (k : Nat),
    k < (removeLoop fileSize maxA cur l).length →
    sumSizes fileSize ((removeLoop fileSize maxA cur l).take k) < cur - maxA := by
  intro l
  induction l with
  | nil =>
    intro cur k hk
    simp [removeLoop] at hk
  | cons r rs ih =>
    intro cur k hk
    rw [removeLoop] at hk ⊢
    by_cases h : cur ≤ maxA
    · rw [if_pos h] at hk
      simp at hk
    · rw [if_neg h] at hk ⊢
      cases k with
      | zero =>
        simp only [List.take_zero, sumSizes, List.map_nil, List.sum_nil]
        omega
      | succ k' =>
        rw [List.length_cons] at hk
        have := ih (cur - fileSize r) k' (by omega)
        rw [List.take_succ_cons]
        simp only [sumSizes, List.map_cons, List.sum_cons] at this ⊢
        omega

/-- C2: `getRedundantResults(results, maxBytes, currentBytes)` returns the
empty list when `currentBytes ≤ maxBytes`; otherwise it pairs every
result with its score computed once against the entire pre-removal set,
sorts the pairs ascending by score, and removes a prefix of the sorted
order, each removal decrementing the running total by the removed
result's `fileSize`, stopping at the budget or when the candidates are
exhausted; consequently the removed sizes sum to at least
`currentBytes - maxBytes` whenever the whole candidate list suffices, and
every proper prefix of the removed list is short of the budget (no more
results are removed than needed). -/
theorem eviction_selection {α σ : Type} (getScore : α → List α → σ)
    (sortLe : σ → σ → Bool) (fileSize : α → Int) (results : List α)
    (maxA cur : Int)
    (htrans : ∀ a b c : σ, sortLe a b = true → sortLe b c = true → sortLe a c = true)
    (htotal : ∀ a b : σ, sortLe a b = true ∨ sortLe b a = true) :
    (cur ≤ maxA → getRedundantResults getScore sortLe fileSize results maxA cur = []) ∧
    ((List.insertionSort (fun a b : α × σ => sortLe a.2 b.2 = true)
        (results.map fun r => (r, getScore r results))).map (fun p => p.1)).Perm results ∧
    List.Pairwise (fun a b : α × σ => sortLe a.2 b.2 = true)
      (List.insertionSort (fun a b : α × σ => sortLe a.2 b.2 = true)
        (results.map fun r => (r, getScore r results))) ∧
    (∀ p ∈ List.insertionSort (fun a b : α × σ => sortLe a.2 b.2 = true)
        (results.map fun r => (r, getScore r results)),
      p.2 = getScore p.1 results) ∧
    (getRedundantResults getScore sortLe fileSize results maxA cur
      = ((List.insertionSort (fun a b : α × σ => sortLe a.2 b.2 = true)
          (results.map fun r => (r, getScore r results))).map (fun p => p.1)).take
        (getRedundantResults getScore sortLe fileSize results maxA cur).length) ∧
    (cur - maxA ≤ sumSizes fileSize results →
      cur - maxA ≤ sumSizes fileSize
        (getRedundantResults getScore sortLe fileSize results maxA cur)) ∧
    (∀ k, k < (getRedundantResults getScore sortLe fileSize results maxA cur).length →
      sumSizes fileSize
        ((getRedundantResults getScore sortLe fileSize results maxA cur).take k)
        < cur - maxA) := by
  have hperm0 : (List.insertionSort (fun a b : α × σ => sortLe a.2 b.2 = true)
      (results.map fun r => (r, getScore r results))).Perm
      (results.map fun r => (r, getScore r results)) :=
    List.perm_insertionSort _ _
  have hperm : ((List.insertionSort (fun a b : α × σ => sortLe a.2 b.2 = true)
      (results.map fun r => (r, getScore r results))).map (fun p => p.1)).Perm results := by
    have h1 := hperm0.map fun p : α × σ => p.1
    rw [List.map_map] at h1
    have h2 : results.map ((fun p : α × σ => p.1) ∘ fun r => (r, getScore r results))
        = results := by
      show results.map (fun r : α => r) = results
      exact List.map_id' results
    rwa [h2] at h1
  have hpair : List.Pairwise (fun a b : α × σ => sortLe a.2 b.2 = true)
      (List.insertionSort (fun a b : α × σ => sortLe a.2 b.2 = true)
        (results.map fun r => (r, getScore r results))) := by
    haveI : IsTotal (α × σ) (fun a b : α × σ => sortLe a.2 b.2 = true) :=
      ⟨fun a b => htotal a.2 b.2⟩
    haveI : IsTrans (α × σ) (fun a b : α × σ => sortLe a.2 b.2 = true) :=
      ⟨fun a b c hab hbc => htrans a.2 b.2 c.2 hab hbc⟩
    exact List.sorted_insertionSort _ _
  have hscores : ∀ p ∈ List.insertionSort (fun a b : α × σ => sortLe a.2 b.2 = true)
      (results.map fun r => (r, getScore r results)), p.2 = getScore p.1 results := by
    intro p hp
    have hp' : p ∈ results.map fun r => (r, getScore r results) :=
      hperm0.mem_iff.mp hp
    obtain ⟨r, _, rfl⟩ := List.mem_map.mp hp'
    rfl
  have hsumAll : sumSizes fileSize
      ((List.insertionSort (fun a b : α × σ => sortLe a.2 b.2 = true)
        (results.map fun r => (r, getScore r results))).map (fun p => p.1))
      = sumSizes fileSize results := by
    exact List.Perm.sum_eq (hperm.map fileSize)
  refine ⟨fun h => by rw [getRedundantResults, if_pos h], hperm, hpair, hscores, ?_, ?_, ?_⟩
  · by_cases h : cur ≤ maxA
    · rw [getRedundantResults, if_pos h]
      rfl
    · rw [getRedundantResults, if_neg h]
      obtain ⟨k, hk, hklen⟩ := removeLoop_eq_take fileSize maxA
        ((List.insertionSort (fun a b : α × σ => sortLe a.2 b.2 = true)
          (results.map fun r => (r, getScore r results))).map (fun p => p.1)) cur
      rw [hk, List.length_take]
      rw [Nat.min_eq_left hklen]
  · intro hsuffices
    by_cases h : cur ≤ maxA
    · rw [getRedundantResults, if_pos h]
      simp only [sumSizes, List.map_nil, List.sum_nil]
      omega
    · rw [getRedundantResults, if_neg h]
      exact removeLoop_sum fileSize maxA _ cur (by rw [hsumAll]; exact hsuffices)
  · intro k hk
    by_cases h : cur ≤ maxA
    · rw [getRedundantResults, if_pos h] at hk
      simp at hk
    · rw [getRedundantResults, if_neg h] at hk ⊢
      exact removeLoop_minimal fileSize maxA _ cur k hk

theorem eviction_selection_witness :
    ((650 : Int) - 400 ≤ sumSizes id [100, 200, 300, 50]) ∧
    (650 : Int) - 400 ≤ sumSizes id
      (getRedundantResults (fun (r : Int) (_ : List Int) => r)
        (fun a b => decide (a ≤ b)) id [100, 200, 300, 50] 400 650) := by
  have h := eviction_selection (fun (r : Int) (_ : List Int) => r)
    (fun a b => decide (a ≤ b)) id [100, 200, 300, 50] 400 650
    (fun a b c hab hbc => by
      simp only [decide_eq_true_eq] at hab hbc ⊢
      omega)
    (fun a b => by
      simp only [decide_eq_true_eq]
      omega)
  exact ⟨by decide, h.2.2.2.2.2.1 (by decide)⟩



/-- C3: during flow evaluation, for a non-intermediate final step `F`,
every intermediate step at position `i` with index less than or equal to
`F`'s index whose declared outputs are a dependency of `F`'s declared
input files and whose status is not already run or restore is marked
`skip` with `F` recorded as a forward reference when `F` resolved to
`restore`; when `F` resolved to `run` instead, that dependency is itself
resolved through the cache lookup (`restore` on a hit, `run` on a miss).
And a step marked `skip` never has its callable executed and no archive
extraction is performed for it by `runStep`. -/
theorem intermediate_skip_rule (F : Step) (steps : List Step) (i : Nat) (s : Step)
    (hF : F.isIntermediate = false)
    (hget : steps[i]? = some s)
    (hint : s.isIntermediate = true)
    (hidx : ∀ fi, F.index = some fi → jsIdx s.index ≤ fi)
    (hdep : isDependency F.operation.inputFiles s.operation.output = true)
    (hunres : statusResolved s = false) :
    (F.status = some .restore →
      (evaluateIntermediateDependencies F steps)[i]? =
        some { s with status := some .skip, forward := s.forward ++ [F.index] }) ∧
    (F.status = some .run →
      (evaluateIntermediateDependencies F steps)[i]? =
        some { s with status := some (if s.operation.cached then .restore else .run) }) ∧
    (∀ t : Step, t.status = some .skip → runStep t = .skippedForward) := by
  have hkeep : depKeep F s = true := by
    rw [depKeep, hint, hdep]
    cases hFi : F.index with
    | none => rfl
    | some fi =>
      have hle := hidx fi hFi
      have hdec : decide (Option.getD (some fi) 0 < jsIdx s.index) = false := by
        simp only [Option.getD_some, decide_eq_false_iff_not]
        omega
      rw [hdec]
      rfl
  have hmap : (evaluateIntermediateDependencies F steps)[i]? = some (evalDepsStep F s) := by
    rw [evaluateIntermediateDependencies, List.getElem?_map, hget]
    rfl
  refine ⟨?_, ?_, fun t ht => by rw [runStep, ht]⟩
  · intro hFres
    rw [hmap, evalDepsStep, if_pos hkeep, if_neg (by rw [hunres]; exact Bool.false_ne_true),
      if_pos hFres]
  · intro hFrun
    rw [hmap, evalDepsStep, if_pos hkeep, if_neg (by rw [hunres]; exact Bool.false_ne_true),
      if_neg (by rw [hFrun]; simp)]
    rfl

theorem intermediate_skip_rule_witness :
    (evaluateIntermediateDependencies
      { operation := { inputFiles := ["build/x.txt"], output := ["out"], cached := true }
        isIntermediate := false, index := some 1, status := some .restore
        forward := [], evaluated := false }
      [{ operation := { inputFiles := ["src/a"], output := ["build/*"], cached := true }
         isIntermediate := true, index := some 0, status := some .skip
         forward := [], evaluated := false }])[0]? =
      some { operation := { inputFiles := ["src/a"], output := ["build/*"], cached := true }
             isIntermediate := true, index := some 0, status := some .skip
             forward := [some 1], evaluated := false } := by
  have h := intermediate_skip_rule
    { operation := { inputFiles := ["build/x.txt"], output := ["out"], cached := true }
      isIntermediate := false, index := some 1, status := some .restore
      forward := [], evaluated := false }
    [{ operation := { inputFiles := ["src/a"], output := ["build/*"], cached := true }
       isIntermediate := true, index := some 0, status := some .skip
       forward := [], evaluated := false }]
    0
    { operation := { inputFiles := ["src/a"], output := ["build/*"], cached := true }
      isIntermediate := true, index := some 0, status := some .skip
      forward := [], evaluated := false }
    rfl (by decide) rfl
    (fun fi hfi => by
      have : fi = 1 := by
        injection hfi with h2
        omega
      subst this
      decide)
    (by decide) rfl
  exact h.1 rfl



theorem protectedSteps_iff (steps : List Step) :
    protectedSteps steps = true ↔
    ∀ s ∈ steps, statusResolved s = true → (s.isIntermediate || s.evaluated) = true := by
  constructor
  · intro h s hs hres
    have := List.all_eq_true.mp h s hs
    rw [hres] at this
    simpa using this
  · intro h
    apply List.all_eq_true.mpr
    intro s hs
    rcases hr : statusResolved s with _ | _
    · simp [hr]
    · simp [hr, h s hs hr]

theorem evalDepsStep_resolved (F t : Step) (h : statusResolved t = true) :
    evalDepsStep F t = t := by
  rw [evalDepsStep]
  rcases hk : depKeep F t with _ | _
  · simp
  · simp [h]

theorem evalDepsStep_nonIntermediate (F t : Step) (h : t.isIntermediate = false) :
    evalDepsStep F t = t := by
  have hk : depKeep F t = false := by
    rw [depKeep, h]
    rfl
  rw [evalDepsStep, hk]
  simp

theorem evalDepsStep_fields (F t : Step) :
    (evalDepsStep F t).isIntermediate = t.isIntermediate := by
  rw [evalDepsStep]
  split
  · split
    · rfl
    · split <;> rfl
  · rfl

theorem evalDepsStep_classify (F t : Step) :
    evalDepsStep F t = t ∨ (evalDepsStep F t).isIntermediate = true := by
  rcases hk : depKeep F t with _ | _
  · left
    rw [evalDepsStep, hk]
    simp
  · right
    rw [evalDepsStep_fields]
    rw [depKeep] at hk
    simp only [Bool.and_eq_true] at hk
    exact hk.1.1

theorem length_evaluateIntermediateDependencies (F : Step) (steps : List Step) :
    (evaluateIntermediateDependencies F steps).length = steps.length := by
  rw [evaluateIntermediateDependencies, List.length_map]

theorem evalGo_keeps (fuel : Nat) : ∀ (steps : List Step) (i : Nat),
    protectedSteps steps = true →
    protectedSteps (evalGo fuel steps i) = true ∧
    (∀ (j : Nat) (t : Step), steps[j]? = some t → statusResolved t = true →
      (evalGo fuel steps i)[j]? = some t) := by
  induction fuel with
  | zero => exact fun steps i h => ⟨h, fun j t hj _ => hj⟩
  | succ fuel ih =>
    intro steps i h
    rw [evalGo]
    cases hsi : steps[i]? with
    | none => exact ⟨h, fun j t hj _ => hj⟩
    | some s =>
      rcases hguard : (s.isIntermediate || s.evaluated) with _ | _
      case true =>
        simp only [hguard]
        rw [if_pos trivial]
        exact ih steps (i + 1) h
      case false =>
      simp only [hguard]
      rw [if_neg Bool.false_ne_true]
      have hilen : i < steps.length := (List.getElem?_eq_some.mp hsi).1
      have hmem : s ∈ steps := List.mem_iff_getElem?.mpr ⟨i, hsi⟩
      have hs_nr : statusResolved s = false := by
        rcases hr : statusResolved s with _ | _
        · rfl
        · have := (protectedSteps_iff steps).mp h s hmem hr
          rw [hguard] at this
          cases this
      have hs1_int : (evaluateStep s).isIntermediate = false := by
        show s.isIntermediate = false
        rcases hg : s.isIntermediate with _ | _
        · rfl
        · rw [hg] at hguard
          cases hguard
      have hlen2 : (evaluateIntermediateDependencies (evaluateStep s)
          (steps.set i (evaluateStep s))).length = steps.length := by
        rw [length_evaluateIntermediateDependencies, List.length_set]
      have hsteps2_j : ∀ j : Nat, j ≠ i →
          (evaluateIntermediateDependencies (evaluateStep s)
            (steps.set i (evaluateStep s)))[j]?
          = (steps[j]?).map (evalDepsStep (evaluateStep s)) := by
        intro j hji
        rw [evaluateIntermediateDependencies, List.getElem?_map,
          List.getElem?_set_ne (fun hh => hji hh.symm)]
      have hsteps3_j : ∀ j : Nat, j ≠ i →
          ((evaluateIntermediateDependencies (evaluateStep s)
            (steps.set i (evaluateStep s))).set i
              { evaluateStep s with evaluated := true })[j]?
          = (steps[j]?).map (evalDepsStep (evaluateStep s)) := by
        intro j hji
        rw [List.getElem?_set_ne (fun hh => hji hh.symm), hsteps2_j j hji]
      have hsteps3_i :
          ((evaluateIntermediateDependencies (evaluateStep s)
            (steps.set i (evaluateStep s))).set i
              { evaluateStep s with evaluated := true })[i]?
          = some { evaluateStep s with evaluated := true } := by
        rw [List.getElem?_set_eq (by rw [hlen2]; exact hilen)]
      have h3 : protectedSteps
          ((evaluateIntermediateDependencies (evaluateStep s)
            (steps.set i (evaluateStep s))).set i
              { evaluateStep s with evaluated := true }) = true := by
        apply (protectedSteps_iff _).mpr
        intro u hu hru
        obtain ⟨j, hj⟩ := List.mem_iff_getElem?.mp hu
        by_cases hji : j = i
        · subst hji
          rw [hsteps3_i] at hj
          have : u.evaluated = true := by
            injection hj with hj2
            rw [← hj2]
          rw [this, Bool.or_true]
        · rw [hsteps3_j j hji] at hj
          cases hjo : steps[j]? with
          | none =>
            rw [hjo] at hj
            cases hj
          | some t =>
            rw [hjo] at hj
            have hj2 : evalDepsStep (evaluateStep s) t = u := Option.some.inj hj
            rcases evalDepsStep_classify (evaluateStep s) t with hcl | hcl
            · rw [hcl] at hj2
              subst hj2
              exact (protectedSteps_iff steps).mp h _
                (List.mem_iff_getElem?.mpr ⟨j, hjo⟩) hru
            · rw [hj2] at hcl
              rw [hcl, Bool.true_or]
      have hpres3 : ∀ (j : Nat) (t : Step), steps[j]? = some t → statusResolved t = true →
          ((evaluateIntermediateDependencies (evaluateStep s)
            (steps.set i (evaluateStep s))).set i
              { evaluateStep s with evaluated := true })[j]? = some t := by
        intro j t hj hrt
        by_cases hji : j = i
        · subst hji
          rw [hsi] at hj
          injection hj with hj2
          subst hj2
          rw [hrt] at hs_nr
          cases hs_nr
        · rw [hsteps3_j j hji, hj]
          show some (evalDepsStep (evaluateStep s) t) = some t
          rw [evalDepsStep_resolved _ _ hrt]
      obtain ⟨hA, hB⟩ := ih _ (i + 1) h3
      refine ⟨hA, fun j t hj hrt => hB j t (hpres3 j t hj hrt) hrt⟩

theorem convertSteps_unresolved :
    ∀ (specs : List (Oper × Bool)) (n : Nat) (u : Step),
    u ∈ convertSteps n specs → statusResolved u = false := by
  intro specs
  induction specs with
  | nil => intro n u hu; cases hu
  | cons spec rest ih =>
    intro n u hu
    rcases List.mem_cons.mp hu with rfl | hu'
    · rw [mkStep]
      rcases spec.2 with _ | _ <;> rfl
    · exact ih (n + 1) u hu'

/-- C10: once a step's status has been resolved to run or restore, no
subsequent scheduler evaluation changes it: under the scheduler invariant
that resolved steps are intermediate or already flagged `evaluated` (true
of every state the scheduler produces — `evaluate` marks the
non-intermediate steps it resolves and the dependency loop only resolves
intermediate ones), re-adding a batch of steps to the same CacheFlow
leaves every earlier run/restore decision unchanged and re-establishes
the invariant. -/
theorem status_monotonic_add (steps : List Step) (specs : List (Oper × Bool))
    (hprotected : protectedSteps steps = true)
    (j : Nat) (s : Step) (hj : steps[j]? = some s)
    (hres : statusResolved s = true) :
    (addSteps steps specs)[j]? = some s ∧
    protectedSteps (addSteps steps specs) = true := by
  have hnew : protectedSteps (steps ++ convertSteps steps.length specs) = true := by
    apply (protectedSteps_iff _).mpr
    intro u hu hru
    rcases List.mem_append.mp hu with h1 | h1
    · exact (protectedSteps_iff _).mp hprotected u h1 hru
    · rw [convertSteps_unresolved specs steps.length u h1] at hru
      cases hru
  have hlt : j < steps.length := (List.getElem?_eq_some.mp hj).1
  have hjapp : (steps ++ convertSteps steps.length specs)[j]? = some s := by
    rw [List.getElem?_append, if_pos hlt]
    exact hj
  rw [addSteps, evaluateFlow]
  obtain ⟨hA, hB⟩ := evalGo_keeps _ _ 0 hnew
  exact ⟨hB j s hjapp hres, hA⟩

theorem status_monotonic_add_witness :
    protectedSteps [stepResolvedSample] = true ∧
    ((addSteps [stepResolvedSample]
        [({ inputFiles := ["y"], output := ["z"], cached := false }, true)])[0]? =
      some stepResolvedSample ∧
    protectedSteps (addSteps [stepResolvedSample]
        [({ inputFiles := ["y"], output := ["z"], cached := false }, true)]) = true) :=
  ⟨by decide,
    status_monotonic_add [stepResolvedSample]
      [({ inputFiles := ["y"], output := ["z"], cached := false }, true)]
      (by decide) 0 stepResolvedSample (by decide) (by decide)⟩


end Johnny
